import Mathlib

/-!
Verification development for the quantum Random Circuit Sampling (RCS)
benchmark library (`src/src/lib.rs`).

The Rust code works with `num_complex::Complex64` amplitudes.  Every scalar
constant the gates use lies in the ring ℚ[i, √2]: the Hadamard factor
`FRAC_1_SQRT_2 = 1/√2 = √2/2`, the `sqrt(X)`/`sqrt(Y)` entries `±0.5 ± 0.5i`,
and the third-gate entries `cos(π/4) = √2/2` and `±i·sin(π/4) = ±i·√2/2`.
We therefore embed amplitudes as elements of ℚ[i, √2], represented exactly by
four rationals, which keeps every simulator operation computable and every
equality decidable, and we interpret this ring into ℂ (`Q2.toR`, `KC.toC`)
to connect the development with the intended complex-number semantics.
-/

namespace RCS

/-- An element `a + b·√2` of ℚ[√2], represented by the two rationals. -/
structure Q2 where
  a : ℚ
  b : ℚ
deriving DecidableEq, Repr

instance : Zero Q2 := ⟨⟨0, 0⟩⟩

instance : One Q2 := ⟨⟨1, 0⟩⟩

instance : Add Q2 := ⟨fun x y => ⟨x.a + y.a, x.b + y.b⟩⟩

instance : Neg Q2 := ⟨fun x => ⟨-x.a, -x.b⟩⟩

instance : Sub Q2 := ⟨fun x y => ⟨x.a - y.a, x.b - y.b⟩⟩

instance : Mul Q2 := ⟨fun x y => ⟨x.a * y.a + 2 * (x.b * y.b), x.a * y.b + x.b * y.a⟩⟩

/-- An element of ℚ[i, √2]: real and imaginary parts in ℚ[√2].  This is the
exact-arithmetic stand-in for the `Complex64` amplitudes of the Rust code. -/
structure KC where
  re : Q2
  im : Q2
deriving DecidableEq, Repr

instance : Zero KC := ⟨⟨0, 0⟩⟩

instance : One KC := ⟨⟨1, 0⟩⟩

instance : Add KC := ⟨fun x y => ⟨x.re + y.re, x.im + y.im⟩⟩

instance : Neg KC := ⟨fun x => ⟨-x.re, -x.im⟩⟩

instance : Sub KC := ⟨fun x y => ⟨x.re - y.re, x.im - y.im⟩⟩

instance : Mul KC := ⟨fun x y => ⟨x.re * y.re - x.im * y.im, x.re * y.im + x.im * y.re⟩⟩

@[simp] lemma Q2.zero_def : (0 : Q2) = ⟨0, 0⟩ := rfl

@[simp] lemma Q2.one_def : (1 : Q2) = ⟨1, 0⟩ := rfl

@[simp] lemma Q2.add_def (x y : Q2) : x + y = ⟨x.a + y.a, x.b + y.b⟩ := rfl

@[simp] lemma Q2.neg_def (x : Q2) : -x = ⟨-x.a, -x.b⟩ := rfl

@[simp] lemma Q2.sub_def (x y : Q2) : x - y = ⟨x.a - y.a, x.b - y.b⟩ := rfl

@[simp] lemma Q2.mul_def (x y : Q2) :
    x * y = ⟨x.a * y.a + 2 * (x.b * y.b), x.a * y.b + x.b * y.a⟩ := rfl

@[simp] lemma KC.zero_defn : (0 : KC) = ⟨0, 0⟩ := rfl

@[simp] lemma KC.one_defn : (1 : KC) = ⟨1, 0⟩ := rfl

@[simp] lemma KC.add_defn (x y : KC) : x + y = ⟨x.re + y.re, x.im + y.im⟩ := rfl

@[simp] lemma KC.neg_defn (x : KC) : -x = ⟨-x.re, -x.im⟩ := rfl

@[simp] lemma KC.sub_defn (x y : KC) : x - y = ⟨x.re - y.re, x.im - y.im⟩ := rfl

@[simp] lemma KC.mul_defn (x y : KC) :
    x * y = ⟨x.re * y.re - x.im * y.im, x.re * y.im + x.im * y.re⟩ := rfl

@[simp] lemma KC.neg_neg (z : KC) : -(-z) = z := by
  rcases z with ⟨⟨a, b⟩, ⟨c, d⟩⟩
  simp

/-- Interpretation of ℚ[√2] into ℝ. -/
noncomputable def Q2.toR (x : Q2) : ℝ := (x.a : ℝ) + (x.b : ℝ) * Real.sqrt 2

/-- Interpretation of ℚ[i, √2] into ℂ. -/
noncomputable def KC.toC (z : KC) : ℂ := ⟨z.re.toR, z.im.toR⟩

@[simp] lemma Q2.toR_mk (a b : ℚ) :
    (Q2.mk a b).toR = (a : ℝ) + (b : ℝ) * Real.sqrt 2 := rfl

lemma Q2.toR_zero : (0 : Q2).toR = 0 := by simp

lemma Q2.toR_one : (1 : Q2).toR = 1 := by simp

lemma Q2.toR_add (x y : Q2) : (x + y).toR = x.toR + y.toR := by
  simp [Q2.toR]; ring

lemma Q2.toR_neg (x : Q2) : (-x).toR = -x.toR := by
  simp [Q2.toR]; ring

lemma Q2.toR_sub (x y : Q2) : (x - y).toR = x.toR - y.toR := by
  simp [Q2.toR]; ring

lemma Q2.toR_mul (x y : Q2) : (x * y).toR = x.toR * y.toR := by
  have h : Real.sqrt 2 * Real.sqrt 2 = 2 := Real.mul_self_sqrt (by norm_num)
  simp only [Q2.mul_def, Q2.toR_mk, Q2.toR]
  push_cast
  linear_combination (-((x.b : ℝ) * (y.b : ℝ))) * h

lemma KC.toC_add (x y : KC) : (x + y).toC = x.toC + y.toC := by
  apply Complex.ext <;>
    simp only [KC.add_defn, KC.toC, Complex.add_re, Complex.add_im, Q2.toR_add]

lemma KC.toC_neg (x : KC) : (-x).toC = -x.toC := by
  apply Complex.ext <;>
    simp only [KC.neg_defn, KC.toC, Complex.neg_re, Complex.neg_im, Q2.toR_neg]

lemma KC.toC_sub (x y : KC) : (x - y).toC = x.toC - y.toC := by
  apply Complex.ext <;>
    simp only [KC.sub_defn, KC.toC, Complex.sub_re, Complex.sub_im, Q2.toR_sub]

lemma KC.toC_mul (x y : KC) : (x * y).toC = x.toC * y.toC := by
  apply Complex.ext <;>
    simp only [KC.mul_defn, KC.toC, Complex.mul_re, Complex.mul_im,
      Q2.toR_add, Q2.toR_sub, Q2.toR_mul]

/-- `Complex64::norm_sqr` on the exact ring: `re² + im²` (`lib.rs` line 136). -/
def KC.normSq (z : KC) : Q2 := z.re * z.re + z.im * z.im

lemma KC.normSq_toC (z : KC) : Complex.normSq z.toC = (KC.normSq z).toR := by
  simp only [KC.toC, KC.normSq, Complex.normSq_mk, Q2.toR_add, Q2.toR_mul]

lemma Q2.toR_list_sum (l : List Q2) : (l.map Q2.toR).sum = l.sum.toR := by
  induction l with
  | nil => simp [Q2.toR_zero]
  | cons x xs ih => simp only [List.map_cons, List.sum_cons, ih, Q2.toR_add]

/-!
## The state-vector simulator (`QuantumSimulator`, `lib.rs` lines 29–158)

The Rust state is a `DVector<Complex64>` of length `1 << n_qubits`, mutated in
place.  Each gate loop touches every index exactly once (the single-qubit loops
visit each bit-clear index `i` once and write only `i` and its partner
`j = i | (1 << qubit)`, reading only values not yet written in the same pass),
so the in-place loop equals the simultaneous index-wise map used below.
States are embedded as `List KC` of length `1 <<< n`.
-/

/-- `QuantumSimulator::new` / `with_seed` state setup (`lib.rs` lines 37–47,
50–60): `dim = 1 << n_qubits`, all amplitudes zero, then `state[0] = 1 + 0i`.
The RNG field has no effect on the initial amplitudes. -/
def newState (n_qubits : ℕ) : List KC :=
  (List.replicate (1 <<< n_qubits) (0 : KC)).set 0 1

/-- `FRAC_1_SQRT_2` (`lib.rs` line 70): `1/√2 = √2/2`, the exact value the
f64 constant approximates. -/
def hConst : Q2 := ⟨0, 1/2⟩

/-- The Hadamard scalar as the complex number `C64::new(h, 0.0)`. -/
def hC : KC := ⟨hConst, 0⟩

lemma hC_toC : hC.toC = ((Real.sqrt 2)⁻¹ : ℝ) := by
  have h : Real.sqrt 2 * Real.sqrt 2 = 2 := Real.mul_self_sqrt (by norm_num)
  have h2 : Real.sqrt 2 ≠ 0 := by
    intro h0
    rw [h0] at h
    norm_num at h
  apply Complex.ext
  · simp only [hC, hConst, KC.toC, Q2.toR_mk, Q2.zero_def, Complex.ofReal_re]
    push_cast
    field_simp
  · simp only [hC, hConst, KC.toC, Q2.toR_mk, Q2.zero_def, Complex.ofReal_im]
    push_cast
    ring

/-- `QuantumSimulator::hadamard` (`lib.rs` lines 69–82): for each index `i`
with bit `qubit` clear and partner `j = i | (1 << qubit)`,
`state[i] = h * (a + b)` and `state[j] = h * (a - b)`. -/
def hadamard (n_qubits qubit : ℕ) (s : List KC) : List KC :=
  (List.range (1 <<< n_qubits)).map fun k =>
    if k.testBit qubit then hC * (s.getD (k ^^^ (1 <<< qubit)) 0 - s.getD k 0)
    else hC * (s.getD k 0 + s.getD (k ||| (1 <<< qubit)) 0)

/-- The 2×2 matrix `(a, b, c, d)` selected by `QuantumSimulator::random_single_gate`
(`lib.rs` lines 90–108) from the drawn `gate_type ∈ 0..3`:
`0`: the `sqrt(X)` entries `s = 0.5+0.5i`, `t = 0.5-0.5i` as `(s, t, t, s)`;
`1`: the `sqrt(Y)` entries `s = 0.5+0.5i`, `t = -0.5-0.5i` as `(s, t, -t, s)`;
otherwise: the commented `sqrt(W)` entries `cos = cos(π/4)`,
`sin_p = i·sin(π/4)`, `sin_m = -i·sin(π/4)` as `(cos, sin_m, sin_p, cos)`,
with the exact values `cos(π/4) = sin(π/4) = √2/2`. -/
def gateMatrix (gate_type : ℕ) : KC × KC × KC × KC :=
  match gate_type with
  | 0 =>
      let s : KC := ⟨⟨1/2, 0⟩, ⟨1/2, 0⟩⟩
      let t : KC := ⟨⟨1/2, 0⟩, ⟨-(1/2), 0⟩⟩
      (s, t, t, s)
  | 1 =>
      let s : KC := ⟨⟨1/2, 0⟩, ⟨1/2, 0⟩⟩
      let t : KC := ⟨⟨-(1/2), 0⟩, ⟨-(1/2), 0⟩⟩
      (s, t, -t, s)
  | _ =>
      let cos : KC := ⟨⟨0, 1/2⟩, 0⟩
      let sin_p : KC := ⟨0, ⟨0, 1/2⟩⟩
      let sin_m : KC := ⟨0, ⟨0, -(1/2)⟩⟩
      (cos, sin_m, sin_p, cos)

/-- `QuantumSimulator::random_single_gate` (`lib.rs` lines 85–119) once the
RNG draw `gate_type = rng.gen_range(0..3)` is fixed: the same pairwise loop as
`hadamard`, with `state[i] = a*x + b*y`, `state[j] = c*x + d*y`. -/
def random_single_gate (n_qubits gate_type qubit : ℕ) (s : List KC) : List KC :=
  (List.range (1 <<< n_qubits)).map fun k =>
    if k.testBit qubit then
      (gateMatrix gate_type).2.2.1 * s.getD (k ^^^ (1 <<< qubit)) 0 +
        (gateMatrix gate_type).2.2.2 * s.getD k 0
    else
      (gateMatrix gate_type).1 * s.getD k 0 +
        (gateMatrix gate_type).2.1 * s.getD (k ||| (1 <<< qubit)) 0

/-- `QuantumSimulator::cz` (`lib.rs` lines 122–132): negate `state[i]` for
every `i` with `i & mask == mask`, `mask = (1 << q1) | (1 << q2)`. -/
def cz (n_qubits q1 q2 : ℕ) (s : List KC) : List KC :=
  (List.range (1 <<< n_qubits)).map fun i =>
    if i &&& ((1 <<< q1) ||| (1 <<< q2)) = (1 <<< q1) ||| (1 <<< q2) then
      -(s.getD i 0)
    else s.getD i 0

/-- `QuantumSimulator::probabilities` (`lib.rs` lines 135–137):
`state.iter().map(|c| c.norm_sqr()).collect()`. -/
def probabilities (s : List KC) : List Q2 := s.map KC.normSq

/-- Sum of the probability vector, the quantity the spec's unitarity invariant
is about, interpreted in ℝ. -/
noncomputable def probSumR (s : List KC) : ℝ := ((probabilities s).map Q2.toR).sum

/-- C1: the norm-preservation invariant FAILS on the code.  The third branch of
`random_single_gate` (the commented `sqrt(W)`, entries
`(cos(π/4), -i·sin(π/4), i·sin(π/4), cos(π/4))`) is the singular matrix
`(I + Y)/√2`, not a unitary.  Witnessed concretely on one qubit: the initial
state `|0⟩` has total probability 1, after the `gate_type = 0` (`sqrt(X)`)
branch the total probability is still 1, but after then applying the
`gate_type = 2` branch the state is annihilated — total probability 0,
not 1 within any tolerance.  No renormalization exists in the code to mask
this; the code contradicts the spec's "each matrix used is exactly unitary". -/
theorem c1_sqrtW_gate_breaks_normalization :
    probSumR (newState 1) = 1 ∧
    probSumR (random_single_gate 1 0 0 (newState 1)) = 1 ∧
    probSumR (random_single_gate 1 2 0 (random_single_gate 1 0 0 (newState 1))) = 0 := by
  have h1 : newState 1 = [1, 0] := by
    simp [newState, List.replicate_succ]
  have h2 : random_single_gate 1 0 0 (newState 1) =
      [⟨⟨1/2, 0⟩, ⟨1/2, 0⟩⟩, ⟨⟨1/2, 0⟩, ⟨-(1/2), 0⟩⟩] := by
    rw [h1]
    simp +decide [random_single_gate, gateMatrix, List.range_succ]
  have h3 : random_single_gate 1 2 0
        ([⟨⟨1/2, 0⟩, ⟨1/2, 0⟩⟩, ⟨⟨1/2, 0⟩, ⟨-(1/2), 0⟩⟩] : List KC) = [0, 0] := by
    simp +decide [random_single_gate, gateMatrix, List.range_succ]
  refine ⟨?_, ?_, ?_⟩
  · rw [h1]
    simp [probSumR, probabilities, KC.normSq]
  · rw [h2]
    simp [probSumR, probabilities, KC.normSq]
    norm_num
  · rw [h2, h3]
    simp [probSumR, probabilities, KC.normSq]

/-! ## Index bookkeeping for the pairwise gate loops -/

lemma getD_map_range {α : Type} (f : ℕ → α) (d : α) {m i : ℕ} (h : i < m) :
    ((List.range m).map f).getD i d = f i := by
  have hl : i < ((List.range m).map f).length := by simpa using h
  rw [List.getD_eq_getElem _ _ hl]
  simp

lemma or_two_pow_testBit (i q : ℕ) : (i ||| 2 ^ q).testBit q = true := by
  simp [Nat.testBit_two_pow_self]

lemma or_two_pow_xor_cancel {i q : ℕ} (h : i.testBit q = false) :
    (i ||| 2 ^ q) ^^^ 2 ^ q = i := by
  apply Nat.eq_of_testBit_eq
  intro k
  by_cases hk : q = k
  · subst hk
    simp [Nat.testBit_two_pow_self, h]
  · simp [Nat.testBit_two_pow_of_ne hk]

lemma or_two_pow_lt {i q n : ℕ} (hi : i < 2 ^ n) (hq : q < n) :
    i ||| 2 ^ q < 2 ^ n :=
  Nat.or_lt_two_pow hi (Nat.pow_lt_pow_right (by norm_num) hq)

lemma and_mask_eq_mask_iff (i q1 q2 : ℕ) :
    (i &&& (2 ^ q1 ||| 2 ^ q2) = (2 ^ q1 ||| 2 ^ q2)) ↔
      (i.testBit q1 = true ∧ i.testBit q2 = true) := by
  constructor
  · intro h
    constructor
    · have h1 := congrArg (Nat.testBit · q1) h
      simpa [Nat.testBit_two_pow_self] using h1
    · have h2 := congrArg (Nat.testBit · q2) h
      simpa [Nat.testBit_two_pow_self] using h2
  · rintro ⟨h1, h2⟩
    apply Nat.eq_of_testBit_eq
    intro k
    by_cases hk1 : q1 = k
    · subst hk1
      simp [Nat.testBit_two_pow_self, h1]
    · by_cases hk2 : q2 = k
      · subst hk2
        simp [Nat.testBit_two_pow_self, Nat.testBit_two_pow_of_ne hk1, h2]
      · simp [Nat.testBit_two_pow_of_ne hk1, Nat.testBit_two_pow_of_ne hk2]

/-- C2: `hadamard(qubit)` implements the single-qubit gate contract with the
matrix `(1/√2)·[[1,1],[1,-1]]`: for every basis index `i` with bit `qubit`
clear and partner `j = i ||| 2^qubit`, the new pair is
`(h·(a+b), h·(a−b))` with `h = 1/√2` exactly — stated both over the exact
scalar ring and, through `KC.toC`, as `(a+b)/√2` and `(a−b)/√2` in ℂ.
Because every index below `2^n` is either such an `i` or such a `j`
(for exactly one pair), these equations determine every entry of the result:
no entry outside the pairs is modified.  The output length is `2^n`. -/
theorem c2_hadamard_pair_update (n q i : ℕ) (s : List KC)
    (hq : q < n) (hi : i < 2 ^ n) (hbit : i.testBit q = false) :
    (hadamard n q s).getD i 0 = hC * (s.getD i 0 + s.getD (i ||| 2 ^ q) 0) ∧
    (hadamard n q s).getD (i ||| 2 ^ q) 0 =
      hC * (s.getD i 0 - s.getD (i ||| 2 ^ q) 0) ∧
    ((hadamard n q s).getD i 0).toC =
      ((s.getD i 0).toC + (s.getD (i ||| 2 ^ q) 0).toC) / Real.sqrt 2 ∧
    ((hadamard n q s).getD (i ||| 2 ^ q) 0).toC =
      ((s.getD i 0).toC - (s.getD (i ||| 2 ^ q) 0).toC) / Real.sqrt 2 ∧
    (hadamard n q s).length = 2 ^ n := by
  have hj : i ||| 2 ^ q < 2 ^ n := or_two_pow_lt hi hq
  have e1 : (hadamard n q s).getD i 0 = hC * (s.getD i 0 + s.getD (i ||| 2 ^ q) 0) := by
    unfold hadamard
    rw [Nat.one_shiftLeft, Nat.one_shiftLeft, getD_map_range _ _ hi, hbit]
    simp
  have e2 : (hadamard n q s).getD (i ||| 2 ^ q) 0 =
      hC * (s.getD i 0 - s.getD (i ||| 2 ^ q) 0) := by
    unfold hadamard
    rw [Nat.one_shiftLeft, Nat.one_shiftLeft, getD_map_range _ _ hj,
      or_two_pow_testBit, if_pos rfl, or_two_pow_xor_cancel hbit]
  have hdiv : ∀ z : ℂ, hC.toC * z = z / Real.sqrt 2 := by
    intro z
    rw [hC_toC, Complex.ofReal_inv, div_eq_mul_inv, mul_comm]
  refine ⟨e1, e2, ?_, ?_, ?_⟩
  · rw [e1, KC.toC_mul, KC.toC_add, hdiv]
  · rw [e2, KC.toC_mul, KC.toC_sub, hdiv]
  · simp [hadamard, Nat.one_shiftLeft]

theorem c2_hadamard_pair_update_witness :
    (0 : ℕ) < 1 ∧ (0 : ℕ) < 2 ^ 1 ∧ Nat.testBit 0 0 = false ∧
    (hadamard 1 0 [1, 0]).getD 0 0 =
      hC * (([1, 0] : List KC).getD 0 0 + ([1, 0] : List KC).getD (0 ||| 2 ^ 0) 0) :=
  ⟨by decide, by decide, by decide,
    (c2_hadamard_pair_update 1 0 0 [1, 0] (by decide) (by decide) (by decide)).1⟩

/-- C3: `cz(q1, q2)` negates exactly the amplitudes whose index has the bits
at `q1` and `q2` both set, and leaves the others unchanged; and concretely,
on the `N = 2` basis state with amplitude 1 at index 3, `cz(0, 1)` yields
amplitude exactly `−1` at index 3 with every other amplitude unchanged. -/
theorem c3_cz_phase (n q1 q2 i : ℕ) (s : List KC) (hi : i < 2 ^ n) :
    (cz n q1 q2 s).getD i 0 =
      (if i.testBit q1 = true ∧ i.testBit q2 = true then -(s.getD i 0)
       else s.getD i 0) ∧
    cz 2 0 1 [0, 0, 0, 1] = [0, 0, 0, -1] := by
  constructor
  · unfold cz
    simp only [Nat.one_shiftLeft]
    rw [getD_map_range _ _ hi]
    by_cases h : i.testBit q1 = true ∧ i.testBit q2 = true
    · rw [if_pos ((and_mask_eq_mask_iff i q1 q2).mpr h), if_pos h]
    · rw [if_neg (fun hc => h ((and_mask_eq_mask_iff i q1 q2).mp hc)), if_neg h]
  · simp +decide [cz, List.range_succ]

theorem c3_cz_phase_witness :
    (3 : ℕ) < 2 ^ 2 ∧
    (cz 2 0 1 [0, 0, 0, 1]).getD 3 0 =
      (if Nat.testBit 3 0 = true ∧ Nat.testBit 3 1 = true
       then -(([0, 0, 0, 1] : List KC).getD 3 0)
       else ([0, 0, 0, 1] : List KC).getD 3 0) :=
  ⟨by decide, (c3_cz_phase 2 0 1 3 [0, 0, 0, 1] (by decide)).1⟩

/-- C10: `cz` is an exact involution: applying it twice with the same qubit
arguments restores the amplitude vector exactly, because negating an
amplitude twice is exact (no floating-point drift is introduced: negation
only flips sign bits). -/
theorem c10_cz_involution (n q1 q2 : ℕ) (s : List KC)
    (hq1 : q1 < n) (hq2 : q2 < n) (hlen : s.length = 2 ^ n) :
    cz n q1 q2 (cz n q1 q2 s) = s := by
  apply List.ext_getElem
  · simp [cz, Nat.one_shiftLeft, hlen]
  · intro k hk1 hk2
    have hk : k < 2 ^ n := by
      simpa [cz, Nat.one_shiftLeft] using hk1
    have hinner : (cz n q1 q2 s).getD k 0 =
        if k &&& (2 ^ q1 ||| 2 ^ q2) = 2 ^ q1 ||| 2 ^ q2 then
          -(s.getD k 0)
        else s.getD k 0 := by
      unfold cz
      simp only [Nat.one_shiftLeft]
      rw [getD_map_range _ _ hk]
    have houter : (cz n q1 q2 (cz n q1 q2 s))[k] =
        if k &&& (2 ^ q1 ||| 2 ^ q2) = 2 ^ q1 ||| 2 ^ q2 then
          -((cz n q1 q2 s).getD k 0)
        else (cz n q1 q2 s).getD k 0 := by
      simp only [cz, Nat.one_shiftLeft]
      simp only [List.getElem_map, List.getElem_range]
    have hsk : s.getD k 0 = s[k] := List.getD_eq_getElem _ _ (hlen ▸ hk)
    rw [houter, hinner]
    by_cases h : k &&& (2 ^ q1 ||| 2 ^ q2) = 2 ^ q1 ||| 2 ^ q2
    · rw [if_pos h, if_pos h, KC.neg_neg, hsk]
    · rw [if_neg h, if_neg h, hsk]

theorem c10_cz_involution_witness :
    (0 : ℕ) < 1 ∧ ([1, 0] : List KC).length = 2 ^ 1 ∧
    cz 1 0 0 (cz 1 0 0 [1, 0]) = [1, 0] :=
  ⟨by decide, by decide, c10_cz_involution 1 0 0 [1, 0] (by decide) (by decide) (by decide)⟩

/-!
## The sampler (`QuantumSimulator::measure`, `lib.rs` lines 140–152)

The loop walks the probabilities accumulating `cumsum += p` and returns the
first index with `r < cumsum`; if the loop finishes, it returns
`probs.len() - 1`.  The f64 probabilities and the uniform draw
`r = rng.gen()` are modeled in the exact ordered field ℚ; the loop itself is
modeled verbatim.
-/

/-- The `for (i, p) in probs.iter().enumerate()` loop of `measure`, with the
running `cumsum` explicit: `none` means the loop fell through. -/
def measureLoop (r : ℚ) : ℚ → List ℚ → Option ℕ
  | _, [] => none
  | cumsum, p :: rest =>
    if r < cumsum + p then some 0
    else (measureLoop r (cumsum + p) rest).map (· + 1)

/-- `QuantumSimulator::measure` for a fixed uniform draw `r`: the loop's
result, falling back to `probs.len() - 1`. -/
def measure (probs : List ℚ) (r : ℚ) : ℕ :=
  (measureLoop r 0 probs).getD (probs.length - 1)

/-- Modelled from the claim's wording (not from the code): the same walk but
returning the first index where the cumulative sum meets OR equals-or-exceeds
the draw, i.e. the test is `r ≤ cumsum` instead of the code's `r < cumsum`. -/
def measureMeetsLoop (r : ℚ) : ℚ → List ℚ → Option ℕ
  | _, [] => none
  | cumsum, p :: rest =>
    if r ≤ cumsum + p then some 0
    else (measureMeetsLoop r (cumsum + p) rest).map (· + 1)

/-- The claim-worded sampler with the same fallback. -/
def measureMeets (probs : List ℚ) (r : ℚ) : ℕ :=
  (measureMeetsLoop r 0 probs).getD (probs.length - 1)

/-- C4 counterexample: with probabilities `[0, 1]` and draw `r = 0` (a legal
uniform draw in `[0,1)`), the first index at which the cumulative sum
"meets or exceeds" the draw is index 0 (`0 ≥ 0`), but the code's strict test
`r < cumsum` skips the zero-probability index and returns index 1.  So
`measure` does not return the first index where the cumulative sum meets or
exceeds the draw. -/
theorem c4_meets_or_exceeds_counterexample :
    measure [0, 1] 0 = 1 ∧ measureMeets [0, 1] 0 = 0 ∧
    measure [0, 1] 0 ≠ measureMeets [0, 1] 0 := by
  refine ⟨?_, ?_, ?_⟩ <;>
    norm_num [measure, measureLoop, measureMeets, measureMeetsLoop]

lemma measureLoop_none_iff (r : ℚ) (l : List ℚ) :
    ∀ c : ℚ, (measureLoop r c l = none ↔
      ∀ k < l.length, ¬ r < c + (l.take (k + 1)).sum) := by
  induction l with
  | nil => intro c; simp [measureLoop]
  | cons p rest ih =>
    intro c
    rw [measureLoop]
    by_cases h : r < c + p
    · rw [if_pos h]
      simp only [List.length_cons]
      constructor
      · intro hnone
        exact absurd hnone (by simp)
      · intro hall
        exact absurd (by simpa using h) (hall 0 (Nat.succ_pos _))
    · rw [if_neg h]
      rw [Option.map_eq_none', ih (c + p)]
      constructor
      · intro hall k hk
        cases k with
        | zero => simpa using h
        | succ j =>
          have hj : j < rest.length := by
            simp only [List.length_cons] at hk
            omega
          have := hall j hj
          simpa [add_assoc] using this
      · intro hall k hk
        have := hall (k + 1) (by simpa using Nat.succ_lt_succ hk)
        simpa [add_assoc] using this

lemma measureLoop_some (r : ℚ) (l : List ℚ) :
    ∀ c : ℚ, ∀ j : ℕ, measureLoop r c l = some j →
      j < l.length ∧ r < c + (l.take (j + 1)).sum ∧
        ∀ k < j, ¬ r < c + (l.take (k + 1)).sum := by
  induction l with
  | nil => intro c j hj; simp [measureLoop] at hj
  | cons p rest ih =>
    intro c j hj
    rw [measureLoop] at hj
    by_cases h : r < c + p
    · rw [if_pos h] at hj
      have hj0 : j = 0 := by simpa using hj.symm
      subst hj0
      exact ⟨Nat.succ_pos _, by simpa using h, fun k hk => absurd hk (Nat.not_lt_zero k)⟩
    · rw [if_neg h, Option.map_eq_some'] at hj
      obtain ⟨j', hj', rfl⟩ := hj
      obtain ⟨hlt, hfound, hmin⟩ := ih (c + p) j' hj'
      refine ⟨by simpa using Nat.succ_lt_succ hlt, by simpa [add_assoc] using hfound, ?_⟩
      intro k hk
      cases k with
      | zero => simpa using h
      | succ k' =>
        have := hmin k' (by omega)
        simpa [add_assoc] using this

/-- C4 (amended: the code's test is strict — it returns the first index at
which the cumulative sum strictly exceeds the draw): `measure` always returns
an index in `[0, probs.length)`; when some prefix sum strictly exceeds the
draw it returns the first such index, and when none does (the floating-point
drift fallback of the claim) it returns the last index `probs.length - 1`, so
sampling never fails to return an index. -/
theorem c4_measure_total (probs : List ℚ) (r : ℚ) (h : 0 < probs.length) :
    measure probs r < probs.length ∧
    ((∃ k, k < probs.length ∧ r < (probs.take (k + 1)).sum) →
        r < (probs.take (measure probs r + 1)).sum ∧
          ∀ k < measure probs r, ¬ r < (probs.take (k + 1)).sum) ∧
    ((∀ k, k < probs.length → ¬ r < (probs.take (k + 1)).sum) →
        measure probs r = probs.length - 1) := by
  cases hl : measureLoop r 0 probs with
  | none =>
    have hall := (measureLoop_none_iff r probs 0).mp hl
    have hm : measure probs r = probs.length - 1 := by
      simp [measure, hl]
    refine ⟨by omega, ?_, fun _ => hm⟩
    rintro ⟨k, hk, hrk⟩
    exact absurd hrk (by simpa using hall k hk)
  | some j =>
    obtain ⟨hlt, hfound, hmin⟩ := measureLoop_some r probs 0 j hl
    have hm : measure probs r = j := by simp [measure, hl]
    rw [hm]
    refine ⟨hlt, fun _ => ⟨by simpa using hfound, fun k hk => by simpa using hmin k hk⟩, ?_⟩
    intro hall
    exact absurd (by simpa using hfound) (hall j hlt)

theorem c4_measure_total_witness :
    0 < ([1/2, 1/2] : List ℚ).length ∧
    measure [1/2, 1/2] (1/2) < ([1/2, 1/2] : List ℚ).length :=
  ⟨by decide, (c4_measure_total [1/2, 1/2] (1/2) (by decide)).1⟩

/-!
## The XEB scorer (`run_rcs_with_samples`, `lib.rs` lines 230–240)

`mean_prob = Σ ideal_probs[s] / n_samples`, `xeb = dim * mean_prob - 1` with
`dim = 1 << n_qubits`, then `xeb.clamp(-0.5, 1.0)`.
-/

/-- Rust's `f64::clamp(lo, hi)` on non-NaN input: `min (max x lo) hi`. -/
def rustClamp (x lo hi : ℚ) : ℚ := min (max x lo) hi

/-- The XEB scoring tail of `run_rcs_with_samples` as a function of the ideal
probability vector and the sampled indices (`lib.rs` lines 230–240): the
code's `mean_prob` (sum of the sampled ideal probabilities over the sample
count) and `xeb = dim * mean_prob - 1` are inlined into one expression. -/
def xebScore (n_qubits : ℕ) (ideal_probs : List ℚ) (samples : List ℕ) : ℚ :=
  rustClamp
    (((1 <<< n_qubits : ℕ) : ℚ) *
        ((samples.map (fun s => ideal_probs.getD s 0)).sum / (samples.length : ℚ)) - 1)
    (-(1/2)) 1

/-- C7: the reported score is `clamp(2^N · meanP − 1, −0.5, 1.0)` with
`meanP = (1/M)·Σ p_ideal(sample_k)`, and for every qubit count, ideal
distribution and positive sample count it lies in `[−0.5, 1.0]`. -/
theorem c7_xeb_clamped (n_qubits : ℕ) (ideal_probs : List ℚ) (samples : List ℕ)
    (h : 0 < samples.length) :
    xebScore n_qubits ideal_probs samples =
      rustClamp ((2 ^ n_qubits : ℚ) *
        ((1 / (samples.length : ℚ)) *
          (samples.map (fun s => ideal_probs.getD s 0)).sum) - 1) (-(1/2)) 1 ∧
    -(1/2) ≤ xebScore n_qubits ideal_probs samples ∧
    xebScore n_qubits ideal_probs samples ≤ 1 := by
  refine ⟨?_, ?_, ?_⟩
  · unfold xebScore
    rw [Nat.one_shiftLeft]
    congr 1
    push_cast
    ring
  · exact le_min (le_max_right _ _) (by norm_num)
  · exact min_le_right _ _

theorem c7_xeb_clamped_witness :
    0 < ([0] : List ℕ).length ∧
    -(1/2) ≤ xebScore 1 [1/2, 1/2] [0] ∧ xebScore 1 [1/2, 1/2] [0] ≤ 1 :=
  ⟨by decide, (c7_xeb_clamped 1 [1/2, 1/2] [0] (by decide)).2⟩

/-- C8: when every sampled outcome has ideal probability exactly `1/2^N`,
the computed XEB score is exactly 0: the mean is exactly `1/2^N`, so
`2^N · meanP − 1 = 0` by the algebraic identity, and the clamp fixes 0. -/
theorem c8_uniform_xeb_zero (n_qubits : ℕ) (ideal_probs : List ℚ) (samples : List ℕ)
    (hM : 0 < samples.length)
    (hunif : ∀ s ∈ samples, ideal_probs.getD s 0 = 1 / 2 ^ n_qubits) :
    xebScore n_qubits ideal_probs samples = 0 := by
  have hM0 : (samples.length : ℚ) ≠ 0 := by
    exact_mod_cast Nat.pos_iff_ne_zero.mp hM
  have hsum : (samples.map (fun s => ideal_probs.getD s 0)).sum =
      (samples.length : ℚ) * (1 / 2 ^ n_qubits) := by
    have := List.sum_eq_card_nsmul (samples.map (fun s => ideal_probs.getD s 0))
      (1 / 2 ^ n_qubits : ℚ) ?_
    · simpa [nsmul_eq_mul] using this
    · intro x hx
      obtain ⟨s, hs, rfl⟩ := List.mem_map.mp hx
      exact hunif s hs
  unfold xebScore
  rw [hsum, Nat.one_shiftLeft]
  have harg : ((2 ^ n_qubits : ℕ) : ℚ) *
      ((samples.length : ℚ) * (1 / 2 ^ n_qubits) / (samples.length : ℚ)) - 1 = 0 := by
    rw [mul_comm ((samples.length : ℚ)) _, mul_div_assoc, div_self hM0, mul_one]
    push_cast
    field_simp
  rw [harg]
  norm_num [rustClamp]

theorem c8_uniform_xeb_zero_witness :
    0 < ([0] : List ℕ).length ∧
    (∀ s ∈ ([0] : List ℕ), ([1/2, 1/2] : List ℚ).getD s 0 = 1 / 2 ^ 1) ∧
    xebScore 1 [1/2, 1/2] [0] = 0 :=
  ⟨by decide, by norm_num, c8_uniform_xeb_zero 1 [1/2, 1/2] [0] (by decide) (by norm_num)⟩

/-!
## Circuit pair generation (`generate_cz_pairs`, `lib.rs` lines 161–181)
-/

/-- The `for i in (offset..n_qubits - 1).step_by(2)` loop (`lib.rs`
lines 167–169): starting at `i`, while `i < stop`, push `(i, i + 1)` and step
by 2. -/
def nnPairsFrom (stop : ℕ) (i : ℕ) : List (ℕ × ℕ) :=
  if i < stop then (i, i + 1) :: nnPairsFrom stop (i + 2) else []
termination_by stop - i
decreasing_by omega

/-- `generate_cz_pairs` with the RNG draws made explicit inputs: `add_long`
is the `rng.gen_bool(0.3)` draw (consumed only when `n_qubits > 4`, because
`&&` short-circuits), and `q1`, `q2` are the `gen_range(0..n_qubits/2)` and
`gen_range(n_qubits/2..n_qubits)` draws made inside that branch.
`offset = layer % 2`, and the loop bound is `n_qubits - 1`. -/
def generate_cz_pairs (n_qubits layer : ℕ) (add_long : Bool) (q1 q2 : ℕ) :
    List (ℕ × ℕ) :=
  nnPairsFrom (n_qubits - 1) (layer % 2) ++
    (if 4 < n_qubits ∧ add_long = true then
      (if q1 ≠ q2 then [(q1, q2)] else [])
     else [])

lemma mem_nnPairsFrom (p : ℕ × ℕ) (stop i0 : ℕ) :
    p ∈ nnPairsFrom stop i0 ↔
      i0 ≤ p.1 ∧ p.1 % 2 = i0 % 2 ∧ p.1 < stop ∧ p.2 = p.1 + 1 := by
  have H : ∀ fuel i0 : ℕ, stop - i0 ≤ fuel →
      (p ∈ nnPairsFrom stop i0 ↔
        i0 ≤ p.1 ∧ p.1 % 2 = i0 % 2 ∧ p.1 < stop ∧ p.2 = p.1 + 1) := by
    intro fuel
    induction fuel with
    | zero =>
      intro i0 hf
      have hge : ¬ i0 < stop := by omega
      rw [nnPairsFrom, if_neg hge]
      simp only [List.not_mem_nil, false_iff]
      rintro ⟨h1, _, h3, _⟩
      omega
    | succ fuel ih =>
      intro i0 hf
      rw [nnPairsFrom]
      by_cases hlt : i0 < stop
      · rw [if_pos hlt]
        rw [List.mem_cons, ih (i0 + 2) (by omega)]
        constructor
        · rintro (rfl | ⟨h1, h2, h3, h4⟩)
          · exact ⟨le_refl _, rfl, hlt, rfl⟩
          · exact ⟨by omega, by omega, h3, h4⟩
        · rintro ⟨h1, h2, h3, h4⟩
          by_cases hp : p.1 = i0
          · left
            rcases p with ⟨pa, pb⟩
            simp only at hp h4
            simp [hp, h4]
          · right
            exact ⟨by omega, by omega, h3, h4⟩
      · rw [if_neg hlt]
        simp only [List.not_mem_nil, false_iff]
        rintro ⟨h1, _, h3, _⟩
        omega
  exact H (stop - i0) i0 (le_refl _)

/-- C6: for layer `d`, `generate_cz_pairs` returns exactly the
nearest-neighbor pairs `(i, i+1)` with `i ≡ d (mod 2)` (offset 0 on even
layers, 1 on odd layers), stepping by 2 and covering qubits up to
`n_qubits − 1` (i.e. `i + 1 ≤ n_qubits − 1`); and, only when the qubit count
exceeds 4 and the 0.3-probability draw fires, appends one long-range pair
`(q1, q2)` with `q1` from the lower half and `q2` from the upper half — and
those never coincide because the two halves are disjoint, so the
`q1 != q2` rejection never drops the pair. -/
theorem c6_generate_cz_pairs (n_qubits layer : ℕ) (add_long : Bool) (q1 q2 : ℕ)
    (hq1 : q1 < n_qubits / 2) (hq2l : n_qubits / 2 ≤ q2) (hq2 : q2 < n_qubits) :
    (∀ p : ℕ × ℕ, p ∈ nnPairsFrom (n_qubits - 1) (layer % 2) ↔
        (p.2 = p.1 + 1 ∧ p.1 % 2 = layer % 2 ∧ p.1 + 1 ≤ n_qubits - 1)) ∧
    q1 ≠ q2 ∧
    generate_cz_pairs n_qubits layer add_long q1 q2 =
      nnPairsFrom (n_qubits - 1) (layer % 2) ++
        (if 4 < n_qubits ∧ add_long = true then [(q1, q2)] else []) := by
  have hne : q1 ≠ q2 := by omega
  refine ⟨?_, hne, ?_⟩
  · intro p
    rw [mem_nnPairsFrom]
    constructor
    · rintro ⟨h1, h2, h3, h4⟩
      exact ⟨h4, by omega, by omega⟩
    · rintro ⟨h4, h2, h3⟩
      refine ⟨by omega, by omega, by omega, h4⟩
  · unfold generate_cz_pairs
    rw [if_pos hne]

theorem c6_generate_cz_pairs_witness :
    (0 : ℕ) < 5 / 2 ∧ (5 : ℕ) / 2 ≤ 2 ∧ (2 : ℕ) < 5 ∧
    generate_cz_pairs 5 0 true 0 2 =
      nnPairsFrom (5 - 1) (0 % 2) ++
        (if 4 < 5 ∧ true = true then [(0, 2)] else []) :=
  ⟨by decide, by decide, by decide,
    (c6_generate_cz_pairs 5 0 true 0 2 (by decide) (by decide) (by decide)).2.2⟩

/-- C9 counterexample: `QuantumSimulator::new(0)` does not fail.  It computes
`dim = 1 << 0 = 1` and returns the well-formed single-amplitude state `[1]`
of length `2^0`, refuting the claim's "it fails if qubitCount is 0". -/
theorem c9_new_zero_qubits_succeeds :
    newState 0 = [1] ∧ (newState 0).length = 2 ^ 0 := by
  constructor <;> simp +decide [newState]

/-- C9 (amended: `create(qubitCount)` allocates a `2^qubitCount`-length
complex vector with index 0 set to amplitude `1 + 0i` and all other entries
`0`, for every qubit count including 0 — the code has no failure path for
`qubitCount = 0`, which yields the valid one-entry state). -/
theorem c9_new_state_shape (n i : ℕ) (hi : 0 < i) :
    (newState n).length = 2 ^ n ∧
    (newState n).getD 0 0 = 1 ∧
    (newState n).getD i 0 = 0 := by
  have hlen : (newState n).length = 2 ^ n := by
    simp [newState, Nat.one_shiftLeft]
  refine ⟨hlen, ?_, ?_⟩
  · have h0 : 0 < (newState n).length := by
      rw [hlen]
      exact Nat.two_pow_pos n
    rw [List.getD_eq_getElem _ _ h0]
    unfold newState
    rw [List.getElem_set_self]
  · by_cases hlt : i < 2 ^ n
    · rw [List.getD_eq_getElem _ _ (by omega)]
      unfold newState
      rw [List.getElem_set_ne (by omega)]
      rw [List.getElem_replicate]
    · rw [List.getD_eq_default _ _ (by rw [hlen]; omega)]

theorem c9_new_state_shape_witness :
    (0 : ℕ) < 1 ∧ (newState 1).length = 2 ^ 1 ∧ (newState 1).getD 1 0 = 0 :=
  ⟨by decide, (c9_new_state_shape 1 1 (by decide)).1,
    (c9_new_state_shape 1 1 (by decide)).2.2⟩

/-!
## The circuit-construction phase of `run_rcs_with_samples`
(`lib.rs` lines 196–219)

The Rust pipeline seeds TWO independent ChaCha8 RNGs from OS entropy on every
call (`QuantumSimulator::new` seeds `sim.rng` with `from_entropy`, line 197
via lines 37–47, and `let mut rng = ChaCha8Rng::from_entropy()`, line 198);
`run_rcs_with_samples` takes no seed parameter at all.  `sim.rng` supplies
the `gen_range(0..3)` draws of `random_single_gate`; the separate `rng`
supplies the draws of `generate_cz_pairs`.  Below the circuit construction is
modeled as a deterministic function of those two draw streams: `gt d q` is
the gate-type draw for qubit `q` of layer `d`, and `pr d` packages the
pair-generation draws of layer `d`.
-/

/-- The `for (q1, q2) in pairs { sim.cz(q1, q2) }` loop (`lib.rs` 216–218). -/
def applyCzPairs (n : ℕ) (pairs : List (ℕ × ℕ)) (s : List KC) : List KC :=
  pairs.foldl (fun st pq => cz n pq.1 pq.2 st) s

/-- The `for q in 0..n_qubits { sim.random_single_gate(q) }` loop
(`lib.rs` 210–212), with the per-qubit gate-type draws `gt`. -/
def applySingleGates (n : ℕ) (gt : ℕ → ℕ) (s : List KC) : List KC :=
  (List.range n).foldl (fun st q => random_single_gate n (gt q) q st) s

/-- The initial `for q in 0..n_qubits { sim.hadamard(q) }` layer
(`lib.rs` 203–205). -/
def hadamardLayer (n : ℕ) (s : List KC) : List KC :=
  (List.range n).foldl (fun st q => hadamard n q st) s

/-- The circuit-construction phase of `run_rcs_with_samples` (`lib.rs`
196–219): Hadamard layer, then `depth` layers of per-qubit random gates
followed by the layer's CZ pairs, as a function of the two draw streams. -/
def runCircuit (n depth : ℕ) (gt : ℕ → ℕ → ℕ) (pr : ℕ → Bool × ℕ × ℕ) : List KC :=
  (List.range depth).foldl
    (fun st d =>
      applyCzPairs n (generate_cz_pairs n d (pr d).1 (pr d).2.1 (pr d).2.2)
        (applySingleGates n (gt d) st))
    (hadamardLayer n (newState n))

lemma hadamard_getD (n q k : ℕ) (s : List KC) (hk : k < 2 ^ n) :
    (hadamard n q s).getD k 0 =
      if k.testBit q then hC * (s.getD (k ^^^ 2 ^ q) 0 - s.getD k 0)
      else hC * (s.getD k 0 + s.getD (k ||| 2 ^ q) 0) := by
  unfold hadamard
  simp only [Nat.one_shiftLeft]
  rw [getD_map_range _ _ hk]

lemma random_single_gate_getD (n g q k : ℕ) (s : List KC) (hk : k < 2 ^ n) :
    (random_single_gate n g q s).getD k 0 =
      if k.testBit q then
        (gateMatrix g).2.2.1 * s.getD (k ^^^ 2 ^ q) 0 +
          (gateMatrix g).2.2.2 * s.getD k 0
      else
        (gateMatrix g).1 * s.getD k 0 +
          (gateMatrix g).2.1 * s.getD (k ||| 2 ^ q) 0 := by
  unfold random_single_gate
  simp only [Nat.one_shiftLeft]
  rw [getD_map_range _ _ hk]

lemma cz_getD (n q1 q2 k : ℕ) (s : List KC) (hk : k < 2 ^ n) :
    (cz n q1 q2 s).getD k 0 =
      if k &&& (2 ^ q1 ||| 2 ^ q2) = 2 ^ q1 ||| 2 ^ q2 then -(s.getD k 0)
      else s.getD k 0 := by
  unfold cz
  simp only [Nat.one_shiftLeft]
  rw [getD_map_range _ _ hk]

/-- The state after the initial Hadamard layer on five qubits. -/
def stH : List KC :=
  hadamard 5 4 (hadamard 5 3 (hadamard 5 2 (hadamard 5 1 (hadamard 5 0 (newState 5)))))

/-- The state after layer 0's five single-qubit gates, all drawn as type 0. -/
def stG : List KC :=
  random_single_gate 5 0 4 (random_single_gate 5 0 3 (random_single_gate 5 0 2
    (random_single_gate 5 0 1 (random_single_gate 5 0 0 stH))))

/-- The state after layer 0's nearest-neighbor CZ pairs `(0,1)`, `(2,3)`. -/
def stA : List KC := cz 5 2 3 (cz 5 0 1 stG)

lemma getElem?_map_range {α : Type} (f : ℕ → α) {m i : ℕ} (h : i < m) :
    ((List.range m).map f)[i]? = some (f i) := by
  rw [List.getElem?_map, List.getElem?_range h, Option.map_some']

lemma hadamard_getElem (n q k : ℕ) (s : List KC) (hk : k < 2 ^ n) :
    (hadamard n q s)[k]? =
      some (if k.testBit q then hC * (s.getD (k ^^^ 2 ^ q) 0 - s.getD k 0)
            else hC * (s.getD k 0 + s.getD (k ||| 2 ^ q) 0)) := by
  unfold hadamard
  simp only [Nat.one_shiftLeft]
  exact getElem?_map_range _ hk

lemma random_single_gate_getElem (n g q k : ℕ) (s : List KC) (hk : k < 2 ^ n) :
    (random_single_gate n g q s)[k]? =
      some (if k.testBit q then
              (gateMatrix g).2.2.1 * s.getD (k ^^^ 2 ^ q) 0 +
                (gateMatrix g).2.2.2 * s.getD k 0
            else
              (gateMatrix g).1 * s.getD k 0 +
                (gateMatrix g).2.1 * s.getD (k ||| 2 ^ q) 0) := by
  unfold random_single_gate
  simp only [Nat.one_shiftLeft]
  exact getElem?_map_range _ hk

lemma newState5_getElem : ∀ k, k < 32 → (newState 5)[k]? =
    some (if k = 0 then 1 else 0 : KC) := by
  intro k hk
  have hlen : (newState 5).length = 32 := by
    simp [newState]
  rw [List.getElem?_eq_getElem (by omega)]
  unfold newState
  by_cases h0 : k = 0
  · subst h0
    rw [List.getElem_set_self]
    simp
  · rw [List.getElem_set_ne (by omega), List.getElem_replicate]
    simp [h0]

lemma stH1_getElem : ∀ k, k < 32 → (hadamard 5 0 (newState 5))[k]? =
    some (if k < 2 then (⟨⟨0, 1/2⟩, 0⟩ : KC) else 0) := by
  intro k hk
  rw [hadamard_getElem 5 0 k _ (by simpa using hk)]
  interval_cases k <;>
    (simp +decide [newState5_getElem, hC, hConst]
     all_goals norm_num)

lemma stH2_getElem : ∀ k, k < 32 →
    (hadamard 5 1 (hadamard 5 0 (newState 5)))[k]? =
    some (if k < 4 then (⟨⟨1/2, 0⟩, 0⟩ : KC) else 0) := by
  intro k hk
  rw [hadamard_getElem 5 1 k _ (by simpa using hk)]
  interval_cases k <;>
    (simp +decide [stH1_getElem, hC, hConst]
     all_goals norm_num)

lemma stH3_getElem : ∀ k, k < 32 →
    (hadamard 5 2 (hadamard 5 1 (hadamard 5 0 (newState 5))))[k]? =
    some (if k < 8 then (⟨⟨0, 1/4⟩, 0⟩ : KC) else 0) := by
  intro k hk
  rw [hadamard_getElem 5 2 k _ (by simpa using hk)]
  interval_cases k <;>
    (simp +decide [stH2_getElem, hC, hConst]
     all_goals norm_num)

lemma stH4_getElem : ∀ k, k < 32 →
    (hadamard 5 3 (hadamard 5 2 (hadamard 5 1 (hadamard 5 0 (newState 5)))))[k]? =
    some (if k < 16 then (⟨⟨1/4, 0⟩, 0⟩ : KC) else 0) := by
  intro k hk
  rw [hadamard_getElem 5 3 k _ (by simpa using hk)]
  interval_cases k <;>
    (simp +decide [stH3_getElem, hC, hConst]
     all_goals norm_num)

lemma stH_getElem : ∀ k, k < 32 → stH[k]? = some (⟨⟨0, 1/8⟩, 0⟩ : KC) := by
  intro k hk
  unfold stH
  rw [hadamard_getElem 5 4 k _ (by simpa using hk)]
  interval_cases k <;>
    (simp +decide [stH4_getElem, hC, hConst]
     all_goals norm_num)

lemma rsg0_uniform (s : List KC) (q : ℕ) (hq : q < 5)
    (hs : ∀ k, k < 32 → s[k]? = some (⟨⟨0, 1/8⟩, 0⟩ : KC)) :
    ∀ k, k < 32 → (random_single_gate 5 0 q s)[k]? = some (⟨⟨0, 1/8⟩, 0⟩ : KC) := by
  intro k hk
  have hq2 : 2 ^ q < 32 := by
    calc 2 ^ q < 2 ^ 5 := Nat.pow_lt_pow_right (by norm_num) hq
    _ = 32 := by norm_num
  have hk5 : k < 2 ^ 5 := by simpa using hk
  have hq5 : 2 ^ q < 2 ^ 5 := by simpa using hq2
  rw [random_single_gate_getElem 5 0 q k s hk5]
  by_cases hb : k.testBit q
  · rw [if_pos hb]
    have e1 : s.getD (k ^^^ 2 ^ q) 0 = ⟨⟨0, 1/8⟩, 0⟩ := by
      rw [List.getD_eq_getElem?_getD,
        hs _ (by simpa using Nat.xor_lt_two_pow hk5 hq5)]
      rfl
    have e2 : s.getD k 0 = ⟨⟨0, 1/8⟩, 0⟩ := by
      rw [List.getD_eq_getElem?_getD, hs _ hk]
      rfl
    rw [e1, e2]
    simp +decide [gateMatrix]
    norm_num
  · rw [if_neg hb]
    have e1 : s.getD k 0 = ⟨⟨0, 1/8⟩, 0⟩ := by
      rw [List.getD_eq_getElem?_getD, hs _ hk]
      rfl
    have e2 : s.getD (k ||| 2 ^ q) 0 = ⟨⟨0, 1/8⟩, 0⟩ := by
      rw [List.getD_eq_getElem?_getD,
        hs _ (by simpa using Nat.or_lt_two_pow hk5 hq5)]
      rfl
    rw [e1, e2]
    simp +decide [gateMatrix]
    norm_num

lemma stG_getElem : ∀ k, k < 32 → stG[k]? = some (⟨⟨0, 1/8⟩, 0⟩ : KC) := by
  have g0 := rsg0_uniform _ 0 (by norm_num) stH_getElem
  have g1 := rsg0_uniform _ 1 (by norm_num) g0
  have g2 := rsg0_uniform _ 2 (by norm_num) g1
  have g3 := rsg0_uniform _ 3 (by norm_num) g2
  have g4 := rsg0_uniform _ 4 (by norm_num) g3
  exact g4

/-- C5 is refuted by the code: the post-circuit amplitude vector is NOT a
function of one seed — the CZ-pair RNG draws alone change it.  With the same
gate-type stream (all draws 0) and the same layer count, flipping only the
pair-stream's `gen_bool(0.3)` draw (which adds the long-range pair `(0, 2)`
on 5 qubits) produces a different amplitude vector.  In the Rust code both
streams are freshly entropy-seeded inside `run_rcs_with_samples`, which takes
no seed parameter, so two runs cannot even be given an identical seed. -/
theorem c5_pair_stream_changes_state :
    runCircuit 5 1 (fun _ _ => 0) (fun _ => (false, 0, 2)) ≠
    runCircuit 5 1 (fun _ _ => 0) (fun _ => (true, 0, 2)) := by
  have hpairsA : generate_cz_pairs 5 0 false 0 2 = [(0, 1), (2, 3)] := by
    unfold generate_cz_pairs
    rw [nnPairsFrom, if_pos (by norm_num), nnPairsFrom, if_pos (by norm_num),
      nnPairsFrom, if_neg (by norm_num)]
    simp
  have hpairsB : generate_cz_pairs 5 0 true 0 2 = [(0, 1), (2, 3), (0, 2)] := by
    unfold generate_cz_pairs
    rw [nnPairsFrom, if_pos (by norm_num), nnPairsFrom, if_pos (by norm_num),
      nnPairsFrom, if_neg (by norm_num)]
    simp
  have hA : runCircuit 5 1 (fun _ _ => 0) (fun _ => (false, 0, 2)) = stA := by
    simp only [runCircuit, List.range_succ, List.range_zero, List.nil_append,
      List.foldl_cons, List.foldl_nil, hpairsA]
    simp only [applyCzPairs, applySingleGates, hadamardLayer, List.range_succ,
      List.range_zero, List.nil_append, List.foldl_cons, List.foldl_nil,
      List.foldl_append, stA, stG, stH]
  have hB : runCircuit 5 1 (fun _ _ => 0) (fun _ => (true, 0, 2)) = cz 5 0 2 stA := by
    simp only [runCircuit, List.range_succ, List.range_zero, List.nil_append,
      List.foldl_cons, List.foldl_nil, hpairsB]
    simp only [applyCzPairs, applySingleGates, hadamardLayer, List.range_succ,
      List.range_zero, List.nil_append, List.foldl_cons, List.foldl_nil,
      List.foldl_append, stA, stG, stH]
  rw [hA, hB]
  intro heq
  have hA5 : stA.getD 5 0 = (⟨⟨0, 1/8⟩, 0⟩ : KC) := by
    unfold stA
    rw [cz_getD 5 2 3 5 _ (by norm_num), if_neg (by decide),
      cz_getD 5 0 1 5 _ (by norm_num), if_neg (by decide)]
    rw [List.getD_eq_getElem?_getD, stG_getElem 5 (by norm_num)]
    rfl
  have hB5 : (cz 5 0 2 stA).getD 5 0 = -(⟨⟨0, 1/8⟩, 0⟩ : KC) := by
    rw [cz_getD 5 0 2 5 _ (by norm_num), if_pos (by decide), hA5]
  have h5 : stA.getD 5 0 = (cz 5 0 2 stA).getD 5 0 := by rw [← heq]
  rw [hA5, hB5] at h5
  simp at h5
  norm_num at h5

end RCS
